import Mathlib

/-!
# Verification of the word-level diff engine of `inline-menu.ts`

This file gives a shallow embedding of the word-level diff engine of the
obsidian-id8 plugin (`src/inline-menu.ts`): the tokenizer `tokenizeText`,
the LCS table and backtracking loop of `diffWords`, the facade
`computeDiff`, and the staleness check of `applyTextReplacement`.
JavaScript strings are modelled as Lean `String`s (lists of characters);
the delimiter classes of the splitting regex `/(\s+|[.,!?;:])/g` are
modelled character by character.  The LCS table and the backtracking
`while` loop are modelled with an explicit fuel argument instantiated at
`i + j`, which each loop iteration strictly decreases, so the fuel never
runs out on the calls the program makes; fuel-irrelevance lemmas below
make the recurrences exact.
-/

namespace Id8

/-- The `DiffOperation.type` field of `inline-menu.ts`:
`'equal' | 'delete' | 'insert'`. -/
inductive DiffType where
  | equal
  | delete
  | insert
deriving DecidableEq

/-- `interface DiffOperation { type; text }` of `inline-menu.ts`. -/
structure DiffOperation where
  type : DiffType
  text : String
deriving DecidableEq

/-- `interface DiffResult { operations; hasChanges }` of `inline-menu.ts`. -/
structure DiffResult where
  operations : List DiffOperation
  hasChanges : Bool
deriving DecidableEq

/-- The punctuation alternative `[.,!?;:]` of the splitting regex in
`tokenizeText`. -/
def isDelimPunct (c : Char) : Bool :=
  c = '.' || c = ',' || c = '!' || c = '?' || c = ';' || c = ':'

/-- The JavaScript `\s` character class (the whitespace alternative `\s+`
of the splitting regex): space, tab, line feed, vertical tab, form feed,
carriage return, and the Unicode space separators, line/paragraph
separators, next line is excluded by JS (U+0085 is not in `\s`), plus
no-break space, narrow no-break space, medium mathematical space,
ideographic space and the byte-order mark. -/
def isJsWhitespace (c : Char) : Bool :=
  c = ' ' || c = '\t' || c = '\n' || c.val = 0x0B || c.val = 0x0C || c = '\r' ||
  c.val = 0x00A0 || c.val = 0x1680 || (0x2000 ≤ c.val && c.val ≤ 0x200A) ||
  c.val = 0x2028 || c.val = 0x2029 || c.val = 0x202F || c.val = 0x205F ||
  c.val = 0x3000 || c.val = 0xFEFF

/-- Character-level model of
`text.split(/(\s+|[.,!?;:])/g).filter(token => token.length > 0)`
(the body of `tokenizeText`): the split keeps the captured delimiters, so
the output is, in input order, every maximal run of whitespace as one
token, every punctuation character as its own token, and every maximal
run of the remaining characters as one token; the filter drops the empty
fragments the split yields between adjacent delimiters and at the ends.
Here each character is prepended to the token list of the tail: it starts
a new token exactly when it is a punctuation delimiter, the tail is
empty, the next token starts with a punctuation delimiter, or the next
token's class (whitespace run vs. word run) differs from its own. -/
def tokenizeChars : List Char → List (List Char)
  | [] => []
  | c :: rest =>
    match tokenizeChars rest with
    | [] => [[c]]
    | t :: ts =>
      if isDelimPunct c then [c] :: t :: ts
      else
        match t with
        | [] => [c] :: ts
        | d :: tRest =>
          if isDelimPunct d then [c] :: (d :: tRest) :: ts
          else if isJsWhitespace c = isJsWhitespace d then (c :: d :: tRest) :: ts
          else [c] :: (d :: tRest) :: ts

/-- `tokenizeText` of `inline-menu.ts`:
`return text.split(/(\s+|[.,!?;:])/g).filter(token => token.length > 0);` -/
def tokenizeText (text : String) : List String :=
  (tokenizeChars text.data).map fun t => String.mk t

/-- Concatenating the character-level tokens gives back the characters. -/
theorem tokenizeChars_flatten (l : List Char) : (tokenizeChars l).flatten = l := by
  induction l with
  | nil => rfl
  | cons c rest ih =>
    rw [tokenizeChars]
    rcases h : tokenizeChars rest with _ | ⟨t, ts⟩
    · rw [h] at ih
      simp at ih
      simp [ih]
    · rw [h] at ih
      rcases t with _ | ⟨d, tRest⟩ <;> simp only []
      · split <;> simp_all
      · split
        · simp_all
        · split
          · simp_all
          · split <;> simp_all

/-- Every token produced by `tokenizeChars` is nonempty (the `filter`
drops the zero-length fragments). -/
theorem tokenizeChars_ne_nil (l : List Char) :
    ∀ t ∈ tokenizeChars l, t ≠ [] := by
  induction l with
  | nil => intro t ht; simp [tokenizeChars] at ht
  | cons c rest ih =>
    intro t ht
    rw [tokenizeChars] at ht
    rcases h : tokenizeChars rest with _ | ⟨u, us⟩ <;> rw [h] at ht
    · simp at ht
      simp [ht]
    · rw [h] at ih
      rcases u with _ | ⟨d, uRest⟩
      · exact absurd rfl (ih [] (by simp))
      · simp only [] at ht
        split at ht
        · rcases List.mem_cons.1 ht with h1 | h1
          · simp [h1]
          · exact ih t h1
        · split at ht
          · rcases List.mem_cons.1 ht with h1 | h1
            · simp [h1]
            · exact ih t h1
          · split at ht
            · rcases List.mem_cons.1 ht with h1 | h1
              · simp [h1]
              · exact ih t (List.mem_cons_of_mem _ h1)
            · rcases List.mem_cons.1 ht with h1 | h1
              · simp [h1]
              · exact ih t h1

/-- C2. Tokenization round-trip: for every string `s`, concatenating, in
order, all tokens produced by `tokenizeText s` yields exactly `s` — no
character is lost, added, or altered, for arbitrary (Unicode or
delimiter-only) input. -/
theorem tokenizeText_roundtrip (s : String) : String.join (tokenizeText s) = s := by
  rw [String.join_eq, tokenizeText]
  apply String.ext
  simp only [List.map_map]
  have : (String.data ∘ fun t => String.mk t) = id := rfl
  rw [this, List.map_id, tokenizeChars_flatten]

/-- The LCS dynamic-programming table of `diffWords`: `lcsF oldWords
newWords fuel i j` is the source's `lcs[i][j]` — `0` on the base row and
column, and for `i, j ≥ 1`, `lcs[i-1][j-1] + 1` when
`oldWords[i - 1] === newWords[j - 1]` and
`Math.max(lcs[i - 1][j], lcs[i][j - 1])` otherwise.  The extra `fuel`
argument makes the recursion structural; every recursive call drops
`i + j` by at least one, so fuel `i + j` (used by `lcs` below) always
suffices, as `lcsF_fuel` proves.  Out-of-range indices read the default
`""`; all calls the program makes are in range. -/
def lcsF (oldWords newWords : List String) : Nat → Nat → Nat → Nat
  | _, 0, _ => 0
  | _, _ + 1, 0 => 0
  | 0, _ + 1, _ + 1 => 0
  | fuel + 1, i + 1, j + 1 =>
    if oldWords.getD i "" = newWords.getD j "" then
      lcsF oldWords newWords fuel i j + 1
    else
      max (lcsF oldWords newWords fuel i (j + 1)) (lcsF oldWords newWords fuel (i + 1) j)

/-- `lcs oldWords newWords i j` is the table entry `lcs[i][j]` of
`diffWords`. -/
def lcs (oldWords newWords : List String) (i j : Nat) : Nat :=
  lcsF oldWords newWords (i + j) i j

/-- Any fuel of at least `i + j` computes the same table entry. -/
theorem lcsF_fuel (o n : List String) :
    ∀ f f' i j, i + j ≤ f → i + j ≤ f' →
      lcsF o n f i j = lcsF o n f' i j := by
  intro f
  induction f with
  | zero =>
    intro f' i j hf _
    have hi : i = 0 := by omega
    subst hi
    cases f' <;> simp [lcsF]
  | succ f ih =>
    intro f' i j hf hf'
    match i, j with
    | 0, j => cases f' <;> simp [lcsF]
    | i + 1, 0 => cases f' <;> simp [lcsF]
    | i + 1, j + 1 =>
      match f', hf' with
      | f' + 1, hf' =>
        rw [lcsF, lcsF]
        have h1 : i + j ≤ f := by omega
        have h2 : i + (j + 1) ≤ f := by omega
        have h3 : (i + 1) + j ≤ f := by omega
        have h1' : i + j ≤ f' := by omega
        have h2' : i + (j + 1) ≤ f' := by omega
        have h3' : (i + 1) + j ≤ f' := by omega
        rw [ih f' i j h1 h1', ih f' i (j + 1) h2 h2', ih f' (i + 1) j h3 h3']

/-- Base column of the table: `lcs[0][j] = 0`. -/
theorem lcs_zero_left (o n : List String) (j : Nat) : lcs o n 0 j = 0 := by
  simp [lcs, lcsF]

/-- Base row of the table: `lcs[i][0] = 0`. -/
theorem lcs_zero_right (o n : List String) (i : Nat) : lcs o n i 0 = 0 := by
  cases i <;> simp [lcs, lcsF]

/-- The fill recurrence of the table, stated for `lcs`. -/
theorem lcs_succ_succ (o n : List String) (i j : Nat) :
    lcs o n (i + 1) (j + 1) =
      if o.getD i "" = n.getD j "" then lcs o n i j + 1
      else max (lcs o n i (j + 1)) (lcs o n (i + 1) j) := by
  show lcsF o n ((i + 1) + (j + 1)) (i + 1) (j + 1) = _
  have : (i + 1) + (j + 1) = (i + j + 1) + 1 := by omega
  rw [this, lcsF]
  rw [lcsF_fuel o n (i + j + 1) (i + j) i j (by omega) (by omega),
    lcsF_fuel o n (i + j + 1) (i + (j + 1)) i (j + 1) (by omega) (by omega),
    lcsF_fuel o n (i + j + 1) ((i + 1) + j) (i + 1) j (by omega) (by omega)]
  rfl

/-- The table entry `lcs[i][j]` is at most `i`. -/
theorem lcs_le_left (o n : List String) :
    ∀ i j, lcs o n i j ≤ i := by
  have key : ∀ f i j, i + j ≤ f → lcs o n i j ≤ i := by
    intro f
    induction f with
    | zero =>
      intro i j h
      have : i = 0 := by omega
      subst this
      simp [lcs_zero_left]
    | succ f ih =>
      intro i j h
      match i, j with
      | 0, j => simp [lcs_zero_left]
      | i + 1, 0 => simp [lcs_zero_right]
      | i + 1, j + 1 =>
        rw [lcs_succ_succ]
        split
        · have := ih i j (by omega)
          omega
        · have h1 := ih i (j + 1) (by omega)
          have h2 := ih (i + 1) j (by omega)
          omega
  intro i j
  exact key (i + j) i j le_rfl

/-- The table entry `lcs[i][j]` is at most `j`. -/
theorem lcs_le_right (o n : List String) :
    ∀ i j, lcs o n i j ≤ j := by
  have key : ∀ f i j, i + j ≤ f → lcs o n i j ≤ j := by
    intro f
    induction f with
    | zero =>
      intro i j h
      have : i = 0 := by omega
      subst this
      simp [lcs_zero_left]
    | succ f ih =>
      intro i j h
      match i, j with
      | 0, j => simp [lcs_zero_left]
      | i + 1, 0 => simp [lcs_zero_right]
      | i + 1, j + 1 =>
        rw [lcs_succ_succ]
        split
        · have := ih i j (by omega)
          omega
        · have h1 := ih i (j + 1) (by omega)
          have h2 := ih (i + 1) j (by omega)
          omega
  intro i j
  exact key (i + j) i j le_rfl

/-- The backtracking `while (i > 0 || j > 0)` loop of `diffWords`, with
an explicit fuel argument (each iteration decrements `i`, `j`, or both,
so fuel `i + j`, used by `backtrack` below, always suffices, as
`backtrackF_fuel` proves).  Each iteration: if `i > 0 && j > 0 &&
oldWords[i-1] === newWords[j-1]`, unshift `equal` and decrement both;
else if `j > 0 && (i === 0 || lcs[i][j-1] >= lcs[i-1][j])`, unshift
`insert(newWords[j-1])` and decrement `j`; else if `i > 0`, unshift
`delete(oldWords[i-1])` and decrement `i`.  Since the loop walks from
`(m, n)` toward `(0, 0)` and unshifts (prepends) each operation, the
operation emitted at the current cell comes after the operations of the
remaining iterations, i.e. the recursive result is extended on the
right. -/
def backtrackF (oldWords newWords : List String) : Nat → Nat → Nat → List DiffOperation
  | 0, _, _ => []
  | fuel + 1, i, j =>
    if 0 < i ∨ 0 < j then
      if 0 < i ∧ 0 < j ∧ oldWords.getD (i - 1) "" = newWords.getD (j - 1) "" then
        backtrackF oldWords newWords fuel (i - 1) (j - 1) ++
          [⟨DiffType.equal, oldWords.getD (i - 1) ""⟩]
      else if 0 < j ∧ (i = 0 ∨ lcs oldWords newWords (i - 1) j ≤ lcs oldWords newWords i (j - 1)) then
        backtrackF oldWords newWords fuel i (j - 1) ++
          [⟨DiffType.insert, newWords.getD (j - 1) ""⟩]
      else if 0 < i then
        backtrackF oldWords newWords fuel (i - 1) j ++
          [⟨DiffType.delete, oldWords.getD (i - 1) ""⟩]
      else []
    else []

/-- The backtracking loop started at cell `(i, j)`. -/
def backtrack (oldWords newWords : List String) (i j : Nat) : List DiffOperation :=
  backtrackF oldWords newWords (i + j) i j

/-- Any fuel of at least `i + j` runs the backtracking loop to
completion. -/
theorem backtrackF_fuel (o n : List String) :
    ∀ f f' i j, i + j ≤ f → i + j ≤ f' →
      backtrackF o n f i j = backtrackF o n f' i j := by
  intro f
  induction f with
  | zero =>
    intro f' i j hf _
    have hi : i = 0 := by omega
    have hj : j = 0 := by omega
    subst hi; subst hj
    cases f' <;> simp [backtrackF]
  | succ f ih =>
    intro f' i j hf hf'
    by_cases hij : 0 < i ∨ 0 < j
    · match f', hf' with
      | 0, hf' =>
        exfalso
        omega
      | f' + 1, hf' =>
        rw [backtrackF, backtrackF, if_pos hij, if_pos hij]
        split
        · rename_i hcase
          rw [ih f' (i - 1) (j - 1) (by omega) (by omega)]
        · split
          · rename_i hcase
            rw [ih f' i (j - 1) (by omega) (by omega)]
          · split
            · rw [ih f' (i - 1) j (by omega) (by omega)]
            · rfl
    · have hi : i = 0 := by omega
      have hj : j = 0 := by omega
      subst hi; subst hj
      cases f' <;> simp [backtrackF]

/-- The loop does nothing at `(0, 0)`. -/
theorem backtrack_zero_zero (o n : List String) : backtrack o n 0 0 = [] := by
  simp [backtrack, backtrackF]

/-- Equal step: when both indices are positive and the current tokens
match, the loop emits `equal` and moves diagonally. -/
theorem backtrack_equal (o n : List String) (i j : Nat)
    (hi : 0 < i) (hj : 0 < j) (heq : o.getD (i - 1) "" = n.getD (j - 1) "") :
    backtrack o n i j =
      backtrack o n (i - 1) (j - 1) ++ [⟨DiffType.equal, o.getD (i - 1) ""⟩] := by
  show backtrackF o n (i + j) i j = _
  match i, j, hi, hj with
  | i + 1, j + 1, _, _ =>
    have : (i + 1) + (j + 1) = (i + j + 1) + 1 := by omega
    rw [this, backtrackF, if_pos (by omega : 0 < i + 1 ∨ 0 < j + 1),
      if_pos ⟨by omega, by omega, heq⟩]
    simp only [Nat.add_sub_cancel]
    rw [backtrackF_fuel o n (i + j + 1) (i + j) i j (by omega) (by omega)]
    rfl

/-- Insert step: when the equal case does not apply, `j` is positive,
and `i = 0` or `lcs[i][j-1] ≥ lcs[i-1][j]`, the loop emits `insert` and
decrements `j`. -/
theorem backtrack_insert (o n : List String) (i j : Nat)
    (hne : ¬(0 < i ∧ 0 < j ∧ o.getD (i - 1) "" = n.getD (j - 1) ""))
    (hj : 0 < j) (htie : i = 0 ∨ lcs o n (i - 1) j ≤ lcs o n i (j - 1)) :
    backtrack o n i j =
      backtrack o n i (j - 1) ++ [⟨DiffType.insert, n.getD (j - 1) ""⟩] := by
  show backtrackF o n (i + j) i j = _
  match j, hj with
  | j + 1, _ =>
    have : i + (j + 1) = (i + j) + 1 := by omega
    rw [this, backtrackF, if_pos (by omega : 0 < i ∨ 0 < j + 1),
      if_neg hne, if_pos ⟨by omega, htie⟩]
    simp only [Nat.add_sub_cancel]
    rfl

/-- Delete step: when neither the equal case nor the insert case
applies and `i` is positive, the loop emits `delete` and decrements
`i`. -/
theorem backtrack_delete (o n : List String) (i j : Nat)
    (hne : ¬(0 < i ∧ 0 < j ∧ o.getD (i - 1) "" = n.getD (j - 1) ""))
    (hnj : ¬(0 < j ∧ (i = 0 ∨ lcs o n (i - 1) j ≤ lcs o n i (j - 1))))
    (hi : 0 < i) :
    backtrack o n i j =
      backtrack o n (i - 1) j ++ [⟨DiffType.delete, o.getD (i - 1) ""⟩] := by
  show backtrackF o n (i + j) i j = _
  match i, hi with
  | i + 1, _ =>
    have : (i + 1) + j = (i + j) + 1 := by omega
    rw [this, backtrackF, if_pos (by omega : 0 < i + 1 ∨ 0 < j),
      if_neg hne, if_neg hnj, if_pos (by omega : 0 < i + 1)]
    simp only [Nat.add_sub_cancel]
    rfl

/-- `diffWords` of `inline-menu.ts`: fill the LCS table, then backtrack
from `(m, n)` to build the operations. -/
def diffWords (oldWords newWords : List String) : List DiffOperation :=
  backtrackF oldWords newWords (oldWords.length + newWords.length)
    oldWords.length newWords.length

/-- `computeDiff` of `inline-menu.ts`: tokenize both inputs, diff the
token lists, and derive `hasChanges` as
`operations.some(op => op.type !== 'equal')`. -/
def computeDiff (originalText newText : String) : DiffResult :=
  let originalWords := tokenizeText originalText
  let newWords := tokenizeText newText
  let operations := diffWords originalWords newWords
  { operations := operations
    hasChanges := operations.any fun op => op.type != DiffType.equal }

theorem diffWords_eq_backtrack (o n : List String) :
    diffWords o n = backtrack o n o.length n.length := rfl

/-- Taking one more element appends the element read by `getD`. -/
theorem take_succ_getD {α : Type} (l : List α) (i : Nat) (d : α) (h : i < l.length) :
    l.take (i + 1) = l.take i ++ [l.getD i d] := by
  rw [List.take_succ, List.getElem?_eq_getElem h, List.getD_eq_getElem?_getD,
    List.getElem?_eq_getElem h]
  rfl

/-- Reconstruction invariant of the backtracking loop: from cell
`(i, j)`, the `equal`/`delete` operations carry, in order, the first `i`
old tokens, and the `equal`/`insert` operations carry the first `j` new
tokens. -/
theorem backtrack_sides (o n : List String) :
    ∀ f i j, i + j ≤ f → i ≤ o.length → j ≤ n.length →
      (((backtrack o n i j).filter fun op => op.type != DiffType.insert).map
          DiffOperation.text = o.take i)
      ∧ (((backtrack o n i j).filter fun op => op.type != DiffType.delete).map
          DiffOperation.text = n.take j) := by
  intro f
  induction f with
  | zero =>
    intro i j hf hi hj
    have h1 : i = 0 := by omega
    have h2 : j = 0 := by omega
    subst h1; subst h2
    simp [backtrack_zero_zero]
  | succ f ih =>
    intro i j hf hi hj
    by_cases hij : 0 < i ∨ 0 < j
    · by_cases hc1 : 0 < i ∧ 0 < j ∧ o.getD (i - 1) "" = n.getD (j - 1) ""
      · obtain ⟨hi0, hj0, heq⟩ := hc1
        obtain ⟨i, rfl⟩ : ∃ i', i = i' + 1 := ⟨i - 1, by omega⟩
        obtain ⟨j, rfl⟩ : ∃ j', j = j' + 1 := ⟨j - 1, by omega⟩
        simp only [Nat.add_sub_cancel] at heq
        rw [backtrack_equal o n (i + 1) (j + 1) (by omega) (by omega)
          (by simpa using heq)]
        simp only [Nat.add_sub_cancel]
        obtain ⟨ih1, ih2⟩ := ih i j (by omega) (by omega) (by omega)
        rw [List.filter_append, List.filter_append, List.map_append, List.map_append,
          ih1, ih2]
        rw [take_succ_getD o i "" (by omega), take_succ_getD n j "" (by omega)]
        refine ⟨rfl, ?_⟩
        rw [heq]
        exact rfl
      · by_cases hc2 : 0 < j ∧ (i = 0 ∨ lcs o n (i - 1) j ≤ lcs o n i (j - 1))
        · obtain ⟨hj0, htie⟩ := hc2
          obtain ⟨j, rfl⟩ : ∃ j', j = j' + 1 := ⟨j - 1, by omega⟩
          rw [backtrack_insert o n i (j + 1) hc1 (by omega) htie]
          simp only [Nat.add_sub_cancel]
          obtain ⟨ih1, ih2⟩ := ih i j (by omega) (by omega) (by omega)
          rw [List.filter_append, List.filter_append, List.map_append, List.map_append,
            ih1, ih2]
          rw [take_succ_getD n j "" (by omega)]
          exact ⟨by simp, rfl⟩
        · have hi0 : 0 < i := by
            by_contra hzero
            have hiz : i = 0 := by omega
            rcases hij with h | h
            · omega
            · exact hc2 ⟨h, Or.inl hiz⟩
          obtain ⟨i, rfl⟩ : ∃ i', i = i' + 1 := ⟨i - 1, by omega⟩
          rw [backtrack_delete o n (i + 1) j hc1 hc2 (by omega)]
          simp only [Nat.add_sub_cancel]
          obtain ⟨ih1, ih2⟩ := ih i j (by omega) (by omega) (by omega)
          rw [List.filter_append, List.filter_append, List.map_append, List.map_append,
            ih1, ih2]
          rw [take_succ_getD o i "" (by omega)]
          exact ⟨rfl, by simp⟩
    · have h1 : i = 0 := by omega
      have h2 : j = 0 := by omega
      subst h1; subst h2
      simp [backtrack_zero_zero]

/-- Counting invariant of the backtracking loop: from cell `(i, j)` the
loop emits exactly `lcs[i][j]` `equal` operations, `i - lcs[i][j]`
`delete` operations and `j - lcs[i][j]` `insert` operations. -/
theorem backtrack_counts (o n : List String) :
    ∀ f i j, i + j ≤ f →
      ((backtrack o n i j).countP (fun op => op.type == DiffType.equal) = lcs o n i j)
      ∧ ((backtrack o n i j).countP (fun op => op.type == DiffType.delete)
          = i - lcs o n i j)
      ∧ ((backtrack o n i j).countP (fun op => op.type == DiffType.insert)
          = j - lcs o n i j) := by
  intro f
  induction f with
  | zero =>
    intro i j hf
    have h1 : i = 0 := by omega
    have h2 : j = 0 := by omega
    subst h1; subst h2
    simp [backtrack_zero_zero, lcs_zero_left]
  | succ f ih =>
    intro i j hf
    by_cases hij : 0 < i ∨ 0 < j
    · by_cases hc1 : 0 < i ∧ 0 < j ∧ o.getD (i - 1) "" = n.getD (j - 1) ""
      · obtain ⟨hi0, hj0, heq⟩ := hc1
        obtain ⟨i, rfl⟩ : ∃ i', i = i' + 1 := ⟨i - 1, by omega⟩
        obtain ⟨j, rfl⟩ : ∃ j', j = j' + 1 := ⟨j - 1, by omega⟩
        simp only [Nat.add_sub_cancel] at heq
        rw [backtrack_equal o n (i + 1) (j + 1) (by omega) (by omega)
          (by simpa using heq)]
        simp only [Nat.add_sub_cancel]
        obtain ⟨ihe, ihd, ihi⟩ := ih i j (by omega)
        have hrec : lcs o n (i + 1) (j + 1) = lcs o n i j + 1 := by
          rw [lcs_succ_succ, if_pos heq]
        have c1 : List.countP (fun op => op.type == DiffType.equal)
            [(⟨DiffType.equal, o.getD i ""⟩ : DiffOperation)] = 1 := rfl
        have c2 : List.countP (fun op => op.type == DiffType.delete)
            [(⟨DiffType.equal, o.getD i ""⟩ : DiffOperation)] = 0 := rfl
        have c3 : List.countP (fun op => op.type == DiffType.insert)
            [(⟨DiffType.equal, o.getD i ""⟩ : DiffOperation)] = 0 := rfl
        rw [List.countP_append, List.countP_append, List.countP_append,
          ihe, ihd, ihi, hrec, c1, c2, c3]
        refine ⟨rfl, by omega, by omega⟩
      · by_cases hc2 : 0 < j ∧ (i = 0 ∨ lcs o n (i - 1) j ≤ lcs o n i (j - 1))
        · obtain ⟨hj0, htie⟩ := hc2
          obtain ⟨j, rfl⟩ : ∃ j', j = j' + 1 := ⟨j - 1, by omega⟩
          rw [backtrack_insert o n i (j + 1) hc1 (by omega) htie]
          simp only [Nat.add_sub_cancel] at htie ⊢
          obtain ⟨ihe, ihd, ihi⟩ := ih i j (by omega)
          have hrec : lcs o n i (j + 1) = lcs o n i j := by
            rcases Nat.eq_zero_or_pos i with hz | hpos
            · subst hz
              rw [lcs_zero_left, lcs_zero_left]
            · obtain ⟨i, rfl⟩ : ∃ i', i = i' + 1 := ⟨i - 1, by omega⟩
              rcases htie with hzero | hle
              · omega
              · have hne' : ¬ o.getD i "" = n.getD j "" := by
                  intro hcontra
                  exact hc1 ⟨by omega, by omega, by simpa using hcontra⟩
                rw [lcs_succ_succ, if_neg hne']
                simp only [Nat.add_sub_cancel] at hle
                omega
          have hle'' : lcs o n i (j + 1) ≤ j := by
            rw [hrec]; exact lcs_le_right o n i j
          have c1 : List.countP (fun op => op.type == DiffType.equal)
              [(⟨DiffType.insert, n.getD j ""⟩ : DiffOperation)] = 0 := rfl
          have c2 : List.countP (fun op => op.type == DiffType.delete)
              [(⟨DiffType.insert, n.getD j ""⟩ : DiffOperation)] = 0 := rfl
          have c3 : List.countP (fun op => op.type == DiffType.insert)
              [(⟨DiffType.insert, n.getD j ""⟩ : DiffOperation)] = 1 := rfl
          rw [List.countP_append, List.countP_append, List.countP_append,
            ihe, ihd, ihi, hrec, c1, c2, c3]
          refine ⟨by omega, by omega, by omega⟩
        · have hi0 : 0 < i := by
            by_contra hzero
            have hiz : i = 0 := by omega
            rcases hij with h | h
            · omega
            · exact hc2 ⟨h, Or.inl hiz⟩
          obtain ⟨i, rfl⟩ : ∃ i', i = i' + 1 := ⟨i - 1, by omega⟩
          rw [backtrack_delete o n (i + 1) j hc1 hc2 (by omega)]
          simp only [Nat.add_sub_cancel]
          obtain ⟨ihe, ihd, ihi⟩ := ih i j (by omega)
          have hrec : lcs o n (i + 1) j = lcs o n i j := by
            rcases Nat.eq_zero_or_pos j with h | h
            · subst h
              rw [lcs_zero_right, lcs_zero_right]
            · obtain ⟨j, rfl⟩ : ∃ j', j = j' + 1 := ⟨j - 1, by omega⟩
              have hne' : ¬ o.getD i "" = n.getD j "" := by
                intro hcontra
                exact hc1 ⟨by omega, by omega, by simpa using hcontra⟩
              have hlt : ¬ (lcs o n i (j + 1) ≤ lcs o n (i + 1) j) := by
                intro hcontra
                refine hc2 ⟨by omega, Or.inr ?_⟩
                simpa using hcontra
              rw [lcs_succ_succ, if_neg hne']
              omega
          have hle' : lcs o n (i + 1) j ≤ i := by
            rw [hrec]; exact lcs_le_left o n i j
          have c1 : List.countP (fun op => op.type == DiffType.equal)
              [(⟨DiffType.delete, o.getD i ""⟩ : DiffOperation)] = 0 := rfl
          have c2 : List.countP (fun op => op.type == DiffType.delete)
              [(⟨DiffType.delete, o.getD i ""⟩ : DiffOperation)] = 1 := rfl
          have c3 : List.countP (fun op => op.type == DiffType.insert)
              [(⟨DiffType.delete, o.getD i ""⟩ : DiffOperation)] = 0 := rfl
          rw [List.countP_append, List.countP_append, List.countP_append,
            ihe, ihd, ihi, hrec, c1, c2, c3]
          refine ⟨by omega, by omega, by omega⟩
    · have h1 : i = 0 := by omega
      have h2 : j = 0 := by omega
      subst h1; subst h2
      simp [backtrack_zero_zero, lcs_zero_left]

theorem computeDiff_operations (a b : String) :
    (computeDiff a b).operations
      = backtrack (tokenizeText a) (tokenizeText b)
          (tokenizeText a).length (tokenizeText b).length := rfl

theorem computeDiff_hasChanges (a b : String) :
    (computeDiff a b).hasChanges
      = (computeDiff a b).operations.any (fun op => op.type != DiffType.equal) := rfl

/-- String form of the tokenization round trip, shared by several
results below. -/
theorem tokenizeText_join (s : String) : String.join (tokenizeText s) = s := by
  rw [String.join_eq, tokenizeText]
  apply String.ext
  simp only [List.map_map]
  have : (String.data ∘ fun t => String.mk t) = id := rfl
  rw [this, List.map_id, tokenizeChars_flatten]

/-- On the diagonal of the table built for two identical token lists the
loop only ever takes the equal step. -/
theorem backtrack_diag_all_equal (w : List String) :
    ∀ i, ∀ op ∈ backtrack w w i i, op.type = DiffType.equal := by
  intro i
  induction i with
  | zero =>
    intro op hop
    rw [backtrack_zero_zero] at hop
    simp at hop
  | succ i ih =>
    intro op hop
    rw [backtrack_equal w w (i + 1) (i + 1) (by omega) (by omega) rfl] at hop
    simp only [Nat.add_sub_cancel] at hop
    rcases List.mem_append.1 hop with h | h
    · exact ih op h
    · simp at h
      rw [h]

/-- Token-level reconstruction of `computeDiff`, shared by several
results below. -/
theorem computeDiff_sides (original revised : String) :
    (((computeDiff original revised).operations.filter
        fun op => op.type != DiffType.insert).map DiffOperation.text
      = tokenizeText original)
    ∧ (((computeDiff original revised).operations.filter
        fun op => op.type != DiffType.delete).map DiffOperation.text
      = tokenizeText revised) := by
  obtain ⟨h1, h2⟩ := backtrack_sides (tokenizeText original) (tokenizeText revised)
    ((tokenizeText original).length + (tokenizeText revised).length)
    (tokenizeText original).length (tokenizeText revised).length
    le_rfl le_rfl le_rfl
  rw [List.take_length] at h1
  rw [List.take_length] at h2
  rw [computeDiff_operations]
  exact ⟨h1, h2⟩

/-- The non-equal operations split into the deletes and the inserts. -/
theorem countP_ne_equal_split (ops : List DiffOperation) :
    ops.countP (fun op => op.type != DiffType.equal)
      = ops.countP (fun op => op.type == DiffType.delete)
        + ops.countP (fun op => op.type == DiffType.insert) := by
  induction ops with
  | nil => rfl
  | cons op rest ih =>
    obtain ⟨t, x⟩ := op
    rw [List.countP_cons, List.countP_cons, List.countP_cons, ih]
    cases t <;> simp <;> omega

/-- C1.  Two-sided reconstruction: the texts of the `Equal`/`Delete`
operations of `computeDiff`, in order, are exactly the token sequence of
the original text (and joined give back the original string), and the
texts of the `Equal`/`Insert` operations are exactly the token sequence
of the revised text (and joined give back the revised string). -/
theorem computeDiff_reconstruction (original revised : String) :
    (((computeDiff original revised).operations.filter
        fun op => op.type != DiffType.insert).map DiffOperation.text
      = tokenizeText original)
    ∧ String.join (((computeDiff original revised).operations.filter
        fun op => op.type != DiffType.insert).map DiffOperation.text) = original
    ∧ (((computeDiff original revised).operations.filter
        fun op => op.type != DiffType.delete).map DiffOperation.text
      = tokenizeText revised)
    ∧ String.join (((computeDiff original revised).operations.filter
        fun op => op.type != DiffType.delete).map DiffOperation.text) = revised := by
  obtain ⟨h1, h2⟩ := computeDiff_sides original revised
  refine ⟨h1, ?_, h2, ?_⟩
  · rw [h1]
    exact tokenizeText_join original
  · rw [h2]
    exact tokenizeText_join revised

/-- C3.  Identity diff: for every string `s` (including `""`),
`computeDiff s s` has `hasChanges = false` and every operation is
`Equal`. -/
theorem computeDiff_self (s : String) :
    (computeDiff s s).hasChanges = false
    ∧ (computeDiff s s).operations.all
        (fun op => op.type == DiffType.equal) = true := by
  have hall : ∀ op ∈ (computeDiff s s).operations, op.type = DiffType.equal := by
    intro op hop
    rw [computeDiff_operations] at hop
    exact backtrack_diag_all_equal (tokenizeText s) (tokenizeText s).length op hop
  constructor
  · rw [computeDiff_hasChanges]
    rw [List.any_eq_false]
    intro op hop
    simp [hall op hop]
  · rw [List.all_eq_true]
    intro op hop
    simp [hall op hop]

/-- C5.  Minimality: the diff contains exactly `L` `Equal` operations
and `(m - L) + (n - L)` non-`Equal` operations, where `m` and `n` are
the token counts and `L` the computed LCS length. -/
theorem computeDiff_minimality (original revised : String) :
    ((computeDiff original revised).operations.countP
        (fun op => op.type != DiffType.equal)
      = ((tokenizeText original).length
          - lcs (tokenizeText original) (tokenizeText revised)
              (tokenizeText original).length (tokenizeText revised).length)
        + ((tokenizeText revised).length
          - lcs (tokenizeText original) (tokenizeText revised)
              (tokenizeText original).length (tokenizeText revised).length))
    ∧ (computeDiff original revised).operations.countP
        (fun op => op.type == DiffType.equal)
      = lcs (tokenizeText original) (tokenizeText revised)
          (tokenizeText original).length (tokenizeText revised).length := by
  obtain ⟨he, hd, hi⟩ := backtrack_counts (tokenizeText original) (tokenizeText revised)
    ((tokenizeText original).length + (tokenizeText revised).length)
    (tokenizeText original).length (tokenizeText revised).length le_rfl
  constructor
  · rw [computeDiff_operations, countP_ne_equal_split, hd, hi]
  · rw [computeDiff_operations, he]

/-- C4.  The backtracking step rule: at any cell `(i, j)`, if the
current tokens are equal the loop emits `Equal` and moves diagonally;
otherwise, if `j > 0` and (`i = 0` or `cell(i, j-1) ≥ cell(i-1, j)`),
it emits `Insert(newTokens[j-1])` and decrements `j`; otherwise, with
`i > 0`, it emits `Delete(oldTokens[i-1])` and decrements `i`.  In
particular, on a tie `cell(i, j-1) = cell(i-1, j)` with both indices
positive and unequal tokens, `Insert` is chosen over `Delete`. -/
theorem diffWords_backtrack_rule (o n : List String) (i j : Nat) :
    (0 < i → 0 < j → o.getD (i - 1) "" = n.getD (j - 1) "" →
      backtrack o n i j
        = backtrack o n (i - 1) (j - 1) ++ [⟨DiffType.equal, o.getD (i - 1) ""⟩])
    ∧ (¬(0 < i ∧ 0 < j ∧ o.getD (i - 1) "" = n.getD (j - 1) "") → 0 < j →
        (i = 0 ∨ lcs o n (i - 1) j ≤ lcs o n i (j - 1)) →
      backtrack o n i j
        = backtrack o n i (j - 1) ++ [⟨DiffType.insert, n.getD (j - 1) ""⟩])
    ∧ (¬(0 < i ∧ 0 < j ∧ o.getD (i - 1) "" = n.getD (j - 1) "") →
        ¬(0 < j ∧ (i = 0 ∨ lcs o n (i - 1) j ≤ lcs o n i (j - 1))) → 0 < i →
      backtrack o n i j
        = backtrack o n (i - 1) j ++ [⟨DiffType.delete, o.getD (i - 1) ""⟩])
    ∧ (0 < i → 0 < j → o.getD (i - 1) "" ≠ n.getD (j - 1) "" →
        lcs o n i (j - 1) = lcs o n (i - 1) j →
      backtrack o n i j
        = backtrack o n i (j - 1) ++ [⟨DiffType.insert, n.getD (j - 1) ""⟩]) := by
  refine ⟨backtrack_equal o n i j, backtrack_insert o n i j,
    backtrack_delete o n i j, ?_⟩
  intro hi hj hne htie
  refine backtrack_insert o n i j ?_ hj (Or.inr (le_of_eq htie.symm))
  rintro ⟨_, _, heq⟩
  exact hne heq

/-- C10.  `hasChanges = false` holds exactly when the two input strings
are identical: the diff reports no changes only for byte-identical
inputs, and conversely. -/
theorem computeDiff_hasChanges_false_iff (original revised : String) :
    (computeDiff original revised).hasChanges = false ↔ original = revised := by
  constructor
  · intro h
    rw [computeDiff_hasChanges, List.any_eq_false] at h
    have hall : ∀ op ∈ (computeDiff original revised).operations,
        op.type = DiffType.equal := by
      intro op hop
      have := h op hop
      simpa using this
    have hfil1 : (computeDiff original revised).operations.filter
        (fun op => op.type != DiffType.insert)
        = (computeDiff original revised).operations :=
      List.filter_eq_self.2 fun op hop => by simp [hall op hop]
    have hfil2 : (computeDiff original revised).operations.filter
        (fun op => op.type != DiffType.delete)
        = (computeDiff original revised).operations :=
      List.filter_eq_self.2 fun op hop => by simp [hall op hop]
    obtain ⟨h1, h2⟩ := computeDiff_sides original revised
    rw [hfil1] at h1
    rw [hfil2] at h2
    have htok : tokenizeText original = tokenizeText revised := by
      rw [← h1, ← h2]
    calc original = String.join (tokenizeText original) :=
          (tokenizeText_join original).symm
      _ = String.join (tokenizeText revised) := by rw [htok]
      _ = revised := tokenizeText_join revised
  · intro h
    subst h
    rw [computeDiff_hasChanges, List.any_eq_false]
    intro op hop
    rw [computeDiff_operations] at hop
    have := backtrack_diag_all_equal (tokenizeText original)
      (tokenizeText original).length op hop
    simp [this]

/-- C6 counterexample: for original `"fast car"` and revised
`"quick car"` the final left-to-right operation sequence is
`[Delete "fast", Insert "quick", Equal " ", Equal "car"]`: the delete is
at index 0 and the insert at index 1, so the inserted span does not
precede the deleted span in the emitted order, refuting the claimed
display order. -/
theorem fastCar_insert_not_before_delete :
    (computeDiff "fast car" "quick car").operations
      = [⟨DiffType.delete, "fast"⟩, ⟨DiffType.insert, "quick"⟩,
         ⟨DiffType.equal, " "⟩, ⟨DiffType.equal, "car"⟩]
    ∧ ¬((computeDiff "fast car" "quick car").operations.findIdx
          (fun op => op.type == DiffType.insert)
        < (computeDiff "fast car" "quick car").operations.findIdx
          (fun op => op.type == DiffType.delete)) := by
  constructor
  · decide
  · decide

/-- C6 (amended): in the tie at backtrack cell `(1, 1)` — the tokens
`"fast"` and `"quick"` differ and `cell(1, 0) = cell(0, 1)` — the loop
chooses `Insert` over `Delete` (the insert is emitted first, during the
right-to-left walk), and the resulting final left-to-right sequence is
`Delete("fast")`, `Insert("quick")`, `Equal(" ")`, `Equal("car")`, with
the deleted span preceding the inserted span. -/
theorem fastCar_diff :
    (computeDiff "fast car" "quick car").operations
      = [⟨DiffType.delete, "fast"⟩, ⟨DiffType.insert, "quick"⟩,
         ⟨DiffType.equal, " "⟩, ⟨DiffType.equal, "car"⟩]
    ∧ lcs ["fast", " ", "car"] ["quick", " ", "car"] 1 0
        = lcs ["fast", " ", "car"] ["quick", " ", "car"] 0 1
    ∧ backtrack ["fast", " ", "car"] ["quick", " ", "car"] 1 1
        = backtrack ["fast", " ", "car"] ["quick", " ", "car"] 1 0
          ++ [⟨DiffType.insert, "quick"⟩] := by
  refine ⟨by decide, by decide, by decide⟩

/-- C7.  Concrete scenario 1: diffing `"The cat sat."` against
`"The cat sat quietly."` keeps `"The"`, `" "`, `"cat"`, `" "`, `"sat"`
as `Equal`, inserts `" "` and `"quietly"` immediately before the final
`Equal(".")`, and sets `hasChanges` to `true`. -/
theorem theCatSat_diff :
    (computeDiff "The cat sat." "The cat sat quietly.").operations
      = [⟨DiffType.equal, "The"⟩, ⟨DiffType.equal, " "⟩, ⟨DiffType.equal, "cat"⟩,
         ⟨DiffType.equal, " "⟩, ⟨DiffType.equal, "sat"⟩, ⟨DiffType.insert, " "⟩,
         ⟨DiffType.insert, "quietly"⟩, ⟨DiffType.equal, "."⟩]
    ∧ (computeDiff "The cat sat." "The cat sat quietly.").hasChanges = true := by
  refine ⟨by decide, by decide⟩

/-- C8.  Empty cases: tokenizing `""` yields no tokens, and
`computeDiff "" "hello"` yields the single operation `Insert("hello")`
with `hasChanges = true`. -/
theorem tokenize_empty_and_insert_hello :
    tokenizeText "" = []
    ∧ (computeDiff "" "hello").operations = [⟨DiffType.insert, "hello"⟩]
    ∧ (computeDiff "" "hello").hasChanges = true := by
  refine ⟨rfl, by decide, by decide⟩

/-- The host editor's view of the document for `applyTextReplacement`:
the document is its character sequence, a selection is a pair of
character offsets, `getRange` reads the span between them and
`replaceRange` splices new text over it (the editor API's
`getRange`/`replaceRange` with positions converted to offsets). -/
def getRange (doc : List Char) (selStart selEnd : Nat) : List Char :=
  (doc.take selEnd).drop selStart

/-- `editor.replaceRange(newText, start, end)`: the document with the
selected span replaced by `newText`. -/
def replaceRange (doc : List Char) (newText : List Char) (selStart selEnd : Nat) :
    List Char :=
  doc.take selStart ++ newText ++ doc.drop selEnd

/-- Outcome of one `applyTextReplacement` call: the resulting document,
whether the replacement was performed (the success notice), and whether
the staleness conflict notice ("The selected text has changed. Please
select the text again and retry.") was shown. -/
structure ApplyOutcome where
  doc : List Char
  applied : Bool
  conflictReported : Bool
deriving DecidableEq

/-- `applyTextReplacement` of `inline-menu.ts`: read the current content
of the selected span; if it still equals the `selectedText` against
which the diff was computed, replace the span with `newText`, else
change nothing and report the conflict. -/
def applyTextReplacement (doc : List Char) (selStart selEnd : Nat)
    (selectedText newText : List Char) : ApplyOutcome :=
  let currentText := getRange doc selStart selEnd
  if currentText = selectedText then
    { doc := replaceRange doc newText selStart selEnd
      applied := true
      conflictReported := false }
  else
    { doc := doc
      applied := false
      conflictReported := true }

/-- C9.  Staleness check at apply time: the revised text replaces the
selected span if and only if the span's current content still equals
the original text the diff was computed against; when it differs, the
conflict is reported and the document is left unchanged. -/
theorem applyTextReplacement_staleness (doc : List Char) (selStart selEnd : Nat)
    (selectedText newText : List Char) :
    ((applyTextReplacement doc selStart selEnd selectedText newText).applied = true
      ↔ getRange doc selStart selEnd = selectedText)
    ∧ ((applyTextReplacement doc selStart selEnd selectedText newText).conflictReported
        = true ↔ getRange doc selStart selEnd ≠ selectedText)
    ∧ ((applyTextReplacement doc selStart selEnd selectedText newText).doc
      = if getRange doc selStart selEnd = selectedText
          then replaceRange doc newText selStart selEnd else doc)
    ∧ ((applyTextReplacement doc selStart selEnd selectedText newText).conflictReported
        = false ∨ (applyTextReplacement doc selStart selEnd selectedText newText).doc
          = doc) := by
  unfold applyTextReplacement
  by_cases h : getRange doc selStart selEnd = selectedText <;> simp [h]

end Id8
